import Mathlib

/-!
Verification of the MS-Portfolio repository: the custom notebook functions
(`matches`, `merge`, `search` from `6_Custom Functions S3.ipynb`) and the
customer-churn pipeline orchestration / feature-store subsystem described by
the repository specification.
-/

namespace Notebook

/-- Python's built-in `list.index(element)`: the index of the first occurrence
of `element`, raising a `ValueError` when the element is absent. -/
def pyListIndex (list1 : List Int) (element : Int) : Except String Nat :=
  match list1 with
  | [] => .error "ValueError"
  | x :: xs =>
    if x = element then .ok 0
    else
      match pyListIndex xs element with
      | .ok i => .ok (i + 1)
      | .error e => .error e

/-- The manual linear-search loop of `search` (the `else` branch of the source):
`returned_index` starts at `-1`, the loop walks the list with a running `index`
and breaks at the first element equal to `element`. -/
def searchLoop (list1 : List Int) (element : Int) (index : Nat) : Int :=
  match list1 with
  | [] => -1
  | list_element :: rest =>
    if list_element = element then (index : Int)
    else searchLoop rest element (index + 1)

/-- `search` from the notebook: with `use_search = true` it calls Python's
`list.index` (which may raise `ValueError`); otherwise it runs the manual
linear search whose default result is `-1`. -/
def search (list1 : List Int) (element : Int) (use_search : Bool) :
    Except String Int :=
  if use_search then
    match pyListIndex list1 element with
    | .ok i => .ok (i : Int)
    | .error e => .error e
  else
    .ok (searchLoop list1 element 0)

/-- `matches` from the notebook: iterate `index` over `range(len(first_string))`
and count the indices at which `index < len(second_string)` and the two strings
hold the same character. -/
def matchesCount (first_string second_string : List Char) : Nat :=
  (List.range first_string.length).foldl
    (fun match_count index =>
      if index < second_string.length ∧
          first_string.get? index = second_string.get? index then
        match_count + 1
      else
        match_count)
    0

/-- The specification's characterization of `matches`: the number of indices
below both lengths at which the strings agree. -/
def matchesSpec (a b : List Char) : Nat :=
  (List.range (min a.length b.length)).countP
    (fun i => decide (a.get? i = b.get? i))

/-- Python's `list.sort()` in ascending order (a stable comparison sort). -/
def pySort (l : List Int) : List Int := List.insertionSort (· ≤ ·) l

/-- The observable effect of one call to the notebook's `merge`: the returned
list together with the final contents of the two argument lists (recorded so
that absence of in-place mutation is a stated fact rather than an implicit
one). -/
structure MergeCall where
  ret : List Int
  list1_after : List Int
  list2_after : List Int
deriving DecidableEq

/-- `merge` from the notebook: `merged_list = []`, `merged_list.extend(list1)`,
`merged_list.extend(list2)`, `merged_list.sort()`, `return merged_list`.
No statement of the source targets `list1` or `list2`, so their final contents
are the argument values. -/
def merge (list1 list2 : List Int) : MergeCall :=
  let merged_list : List Int := []
  let merged_list := merged_list ++ list1
  let merged_list := merged_list ++ list2
  let merged_list := pySort merged_list
  { ret := merged_list, list1_after := list1, list2_after := list2 }

theorem pyListIndex_not_mem {l : List Int} {e : Int} (h : e ∉ l) :
    pyListIndex l e = .error "ValueError" := by
  induction l with
  | nil => rfl
  | cons x xs ih =>
    have hx : ¬x = e := fun hxe => h (hxe ▸ List.mem_cons_self x xs)
    have hxs : e ∉ xs := fun hm => h (List.mem_cons_of_mem x hm)
    simp only [pyListIndex, if_neg hx, ih hxs]

theorem pyListIndex_mem {l : List Int} {e : Int} (h : e ∈ l) :
    pyListIndex l e = .ok (l.indexOf e) := by
  induction l with
  | nil => cases h
  | cons x xs ih =>
    by_cases hx : x = e
    · subst hx
      simp [pyListIndex, List.indexOf_cons_self]
    · have hxs : e ∈ xs := by
        rcases List.mem_cons.mp h with h1 | h1
        · exact absurd h1.symm hx
        · exact h1
      rw [List.indexOf_cons_ne _ hx]
      simp only [pyListIndex, if_neg hx, ih hxs]

theorem searchLoop_not_mem {l : List Int} {e : Int} (h : e ∉ l) :
    ∀ k, searchLoop l e k = -1 := by
  induction l with
  | nil => intro k; rfl
  | cons x xs ih =>
    intro k
    have hx : ¬x = e := fun hxe => h (hxe ▸ List.mem_cons_self x xs)
    have hxs : e ∉ xs := fun hm => h (List.mem_cons_of_mem x hm)
    simp only [searchLoop, if_neg hx, ih hxs]

theorem searchLoop_mem {l : List Int} {e : Int} (h : e ∈ l) :
    ∀ k, searchLoop l e k = ((k + l.indexOf e : Nat) : Int) := by
  induction l with
  | nil => cases h
  | cons x xs ih =>
    intro k
    by_cases hx : x = e
    · subst hx
      simp [searchLoop, List.indexOf_cons_self]
    · have hxs : e ∈ xs := by
        rcases List.mem_cons.mp h with h1 | h1
        · exact absurd h1.symm hx
        · exact h1
      rw [List.indexOf_cons_ne _ hx]
      simp only [searchLoop, if_neg hx, ih hxs]
      push_cast
      ring_nf

/-- C8: when `e` does not occur in `l`, `search l e false` returns `-1` while
`search l e true` raises `ValueError` (from `list.index`) instead of returning
`-1`; when `e` does occur, both modes return the index of its first
occurrence. -/
theorem search_modes_disagree_on_absent (l : List Int) (e : Int) :
    (e ∉ l →
      search l e false = .ok (-1) ∧ search l e true = .error "ValueError") ∧
    (e ∈ l →
      search l e false = .ok ((l.indexOf e : Nat) : Int) ∧
      search l e true = .ok ((l.indexOf e : Nat) : Int)) := by
  constructor
  · intro h
    constructor
    · simp [search, searchLoop_not_mem h]
    · simp [search, pyListIndex_not_mem h]
  · intro h
    constructor
    · have := searchLoop_mem h 0
      simp only [Nat.zero_add] at this
      simp [search, this]
    · simp [search, pyListIndex_mem h]

/-- Witness for C8 on the notebook's own test list `[1, 4, 9, 3, 0]` with the
absent element `8` and the present element `4`. -/
theorem search_modes_disagree_on_absent_witness :
    ((8 : Int) ∉ ([1, 4, 9, 3, 0] : List Int) ∧
      search [1, 4, 9, 3, 0] 8 false = .ok (-1) ∧
      search [1, 4, 9, 3, 0] 8 true = .error "ValueError") ∧
    ((4 : Int) ∈ ([1, 4, 9, 3, 0] : List Int) ∧
      search [1, 4, 9, 3, 0] 4 false = .ok 1 ∧
      search [1, 4, 9, 3, 0] 4 true = .ok 1) := by
  have h8 : (8 : Int) ∉ ([1, 4, 9, 3, 0] : List Int) := by decide
  have h4 : (4 : Int) ∈ ([1, 4, 9, 3, 0] : List Int) := by decide
  have w1 := (search_modes_disagree_on_absent [1, 4, 9, 3, 0] 8).1 h8
  have w2 := (search_modes_disagree_on_absent [1, 4, 9, 3, 0] 4).2 h4
  refine ⟨⟨h8, w1.1, w1.2⟩, ⟨h4, ?_, ?_⟩⟩
  · have := w2.1
    norm_num [List.indexOf] at this ⊢
    exact this
  · have := w2.2
    norm_num [List.indexOf] at this ⊢
    exact this

theorem foldl_count_if (p : Nat → Prop) [DecidablePred p] :
    ∀ (l : List Nat) (c : Nat),
      l.foldl (fun mc i => if p i then mc + 1 else mc) c =
        c + l.countP (fun i => decide (p i)) := by
  intro l
  induction l with
  | nil => intro c; simp
  | cons x xs ih =>
    intro c
    rw [List.foldl_cons, List.countP_cons, ih]
    by_cases h : p x <;> simp [h] <;> omega

theorem countP_range_min (m : Nat) (q : Nat → Prop) [DecidablePred q] :
    ∀ n, (List.range n).countP (fun i => decide (i < m ∧ q i)) =
      (List.range (min n m)).countP (fun i => decide (q i)) := by
  intro n
  induction n with
  | zero => simp
  | succ n ih =>
    rw [List.range_succ, List.countP_append]
    by_cases h : n < m
    · have hmin : min (n + 1) m = n + 1 := by omega
      have hmin' : min n m = n := by omega
      rw [hmin, List.range_succ, List.countP_append, ih, hmin']
      simp [List.countP_cons, h]
    · have hmin : min (n + 1) m = min n m := by omega
      rw [hmin, ih]
      simp [h]

theorem matches_eq_matchesSpec (x y : List Char) :
    matchesCount x y = matchesSpec x y := by
  unfold matchesCount matchesSpec
  rw [foldl_count_if (fun i => i < y.length ∧ x.get? i = y.get? i)]
  simp only [Nat.zero_add]
  exact countP_range_min y.length (fun i => x.get? i = y.get? i) x.length

/-- C9: `matches a b` is the number of indices below both lengths at which the
two strings hold the same character, and `matches` is commutative even for
strings of different lengths. -/
theorem matches_counts_agreeing_indices_and_comm (a b : List Char) :
    matchesCount a b = matchesSpec a b ∧ matchesCount a b = matchesCount b a := by
  have comm : matchesSpec a b = matchesSpec b a := by
    unfold matchesSpec
    rw [Nat.min_comm]
    refine List.countP_congr ?_
    intro i _
    rw [decide_eq_decide.mpr (eq_comm (a := a.get? i) (b := b.get? i))]
  exact ⟨matches_eq_matchesSpec a b, by
    rw [matches_eq_matchesSpec a b, matches_eq_matchesSpec b a, comm]⟩

/-- C10: `merge` returns a new ascending-sorted list whose elements are exactly
the multiset union of the two inputs, and neither input list is mutated by the
call. -/
theorem merge_sorted_perm_inputs_intact (list1 list2 : List Int) :
    List.Sorted (· ≤ ·) (merge list1 list2).ret ∧
    List.Perm (merge list1 list2).ret (list1 ++ list2) ∧
    (merge list1 list2).list1_after = list1 ∧
    (merge list1 list2).list2_after = list2 := by
  refine ⟨?_, ?_, rfl, rfl⟩
  · exact List.sorted_insertionSort _ _
  · have h := List.perm_insertionSort (α := Int) (· ≤ ·) (([] ++ list1) ++ list2)
    simpa [merge, pySort] using h

end Notebook

namespace Orchestration

/-- Modelled from the spec: artifact content, a sequence of bytes (the
repository stores columnar files; `src/orchestrate.py` is not in the source
tree, so the orchestrator is modelled from §3/§4.1-4.2 of the spec). -/
abbrev Content := List Nat

/-- Modelled from the spec: a pipeline stage declares its name, the names of
its upstream dependencies, and a deterministic transformation from the
dependency artifacts to its output artifact (`none` models a stage failure). -/
structure Stage where
  name : String
  deps : List String
  transform : List Content → Option Content

/-- Modelled from the spec: the statically declared collection of stages with
their dependency edges. -/
abbrev Graph := List Stage

/-- The names of the stages of a graph. -/
def names (g : Graph) : List String := g.map (·.name)

/-- Modelled from the spec: the structural, fatal, pre-execution error raised
on a cyclic dependency graph. -/
inductive OrchestratorError where
  | GraphCycleError
deriving DecidableEq

/-- Modelled from the spec: per-stage terminal status. -/
inductive StageStatus where
  | Success
  | Failed
  | UpstreamFailed
deriving DecidableEq

/-- `hasDepEdge g d n`: some stage of `g` named `n` declares `d` as an
upstream dependency. -/
def hasDepEdge (g : Graph) (d n : String) : Prop :=
  ∃ s ∈ g, s.name = n ∧ d ∈ s.deps

/-- Modelled from the spec: the dependency graph contains a cycle
`n → c₁ → ⋯ → cₖ → n` (each node names a stage of `g`, consecutive nodes are
dependency edges, and the last node is a declared dependency of the first). -/
def IsCycle (g : Graph) (c : List String) : Prop :=
  match c with
  | [] => False
  | n :: rest =>
    (∀ m ∈ n :: rest, m ∈ names g) ∧
    List.Chain (hasDepEdge g) n rest ∧
    hasDepEdge g (List.getLast (n :: rest) (List.cons_ne_nil n rest)) n

/-- One step of Kahn's algorithm: the first not-yet-scheduled stage all of
whose declared dependencies are already scheduled. -/
def nextReady (remaining : List Stage) (done : List String) : Option Stage :=
  remaining.find? (fun s => decide (∀ d ∈ s.deps, d ∈ done))

/-- Fuel-indexed Kahn iteration: repeatedly schedule a ready stage; `none`
when stages remain but no progress is possible (a cycle). -/
def topoAux : Nat → List Stage → List String → Option (List String)
  | 0, remaining, done => if remaining.isEmpty then some done else none
  | fuel + 1, remaining, done =>
    match nextReady remaining done with
    | none => if remaining.isEmpty then some done else none
    | some s =>
      topoAux fuel (remaining.filter (fun t => t.name != s.name))
        (done ++ [s.name])

/-- Modelled from the spec: the orchestrator computes a topological order of
the declared stages, failing with `GraphCycleError` on a cyclic graph. -/
def topoSort (g : Graph) : Except OrchestratorError (List String) :=
  match topoAux g.length g [] with
  | some order => .ok order
  | none => .error .GraphCycleError

/-- The artifact store: artifact name ↦ content. -/
abbrev Store := List (String × Content)

/-- First-match association-list lookup (used for the artifact store, the
per-stage status table, and the feature-store tables). -/
def lookupA {β : Type} : List (String × β) → String → Option β
  | [], _ => none
  | (k', v) :: rest, k => if k' = k then some v else lookupA rest k

/-- Overwrite-in-place association-list update: replaces the binding of `k`
when present, otherwise appends it. -/
def setA {β : Type} : List (String × β) → String → β → List (String × β)
  | [], k, v => [(k, v)]
  | (k', v') :: rest, k, v =>
    if k' = k then (k, v) :: rest else (k', v') :: setA rest k v

/-- Run-scoped orchestrator state: the per-stage status table, the artifact
store, and the names of the stages whose transformation was invoked. -/
structure ExecState where
  statuses : List (String × StageStatus)
  store : Store
  invoked : List String

/-- Read the artifacts of the declared dependencies; `none` when any is
missing (`MissingInputError`). -/
def readInputs (store : Store) : List String → Option (List Content)
  | [] => some []
  | d :: ds =>
    match lookupA store d, readInputs store ds with
    | some v, some vs => some (v :: vs)
    | _, _ => none

/-- Did every declared dependency report success in the current run? -/
def depsSucceeded (statuses : List (String × StageStatus))
    (deps : List String) : Bool :=
  decide (∀ d ∈ deps, lookupA statuses d = some .Success)

/-- Modelled from the spec: execute one stage. A stage whose dependencies did
not all succeed is skipped and marked `UpstreamFailed` without invoking its
transformation; a missing input artifact fails the stage before invocation;
otherwise the transformation runs and either fails the stage or writes the
output artifact under the stage's name. -/
def execStep (g : Graph) (st : ExecState) (n : String) : ExecState :=
  match g.find? (fun s => s.name == n) with
  | none => st
  | some s =>
    if depsSucceeded st.statuses s.deps then
      match readInputs st.store s.deps with
      | none =>
        { st with statuses := st.statuses ++ [(n, .Failed)] }
      | some inputs =>
        match s.transform inputs with
        | none =>
          { st with statuses := st.statuses ++ [(n, .Failed)],
                    invoked := st.invoked ++ [n] }
        | some out =>
          { statuses := st.statuses ++ [(n, .Success)],
            store := setA st.store n out,
            invoked := st.invoked ++ [n] }
    else
      { st with statuses := st.statuses ++ [(n, .UpstreamFailed)] }

/-- Execute the stages in the given order. -/
def execStages (g : Graph) : List String → ExecState → ExecState
  | [], st => st
  | n :: rest, st => execStages g rest (execStep g st n)

/-- The observable outcome of one pipeline run: the run result (or the
pre-execution `GraphCycleError`), the final artifact store, and the stages
whose transformation was invoked. -/
structure RunOutcome where
  result : Except OrchestratorError (List (String × StageStatus))
  store : Store
  invoked : List String

/-- Modelled from the spec: a full pipeline run. The topological order is
computed first; a cyclic graph fails fast with `GraphCycleError` before any
stage executes; otherwise the stages run in order. -/
def runPipeline (g : Graph) (store0 : Store) : RunOutcome :=
  match topoSort g with
  | .error e => { result := .error e, store := store0, invoked := [] }
  | .ok order =>
    let final := execStages g order ⟨[], store0, []⟩
    { result := .ok final.statuses, store := final.store,
      invoked := final.invoked }

/-- Modelled from the spec: run-level summary status. -/
inductive RunStatus where
  | SUCCESS
  | PARTIAL_FAILURE (failed : List String)
deriving DecidableEq

/-- Modelled from the spec: a run is `SUCCESS` only when every stage reports
success; otherwise `PARTIAL_FAILURE` with the failed/skipped stage names. -/
def summarize (statuses : List (String × StageStatus)) : RunStatus :=
  let bad := (statuses.filter (fun p => p.2 != .Success)).map (·.1)
  if bad.isEmpty then .SUCCESS else .PARTIAL_FAILURE bad

/-- Modelled from the spec: the run-invocation entry point's exit status —
`0` on full success, non-zero on any stage failure. -/
def exitCode (g : Graph) (store0 : Store) : Nat :=
  match (runPipeline g store0).result with
  | .error _ => 1
  | .ok statuses =>
    match summarize statuses with
    | .SUCCESS => 0
    | .PARTIAL_FAILURE _ => 1

/-- Modelled from the spec: the content fingerprint the core exposes so an
external versioning action can detect change. -/
def fingerprint (v : Content) : Nat :=
  v.foldl (fun h b => h * 31 + b) 7

end Orchestration

namespace Orchestration

theorem stage_name_inj {g : Graph} (hg : (names g).Nodup) :
    ∀ {s t : Stage}, s ∈ g → t ∈ g → s.name = t.name → s = t := by
  intro s t hs ht h
  exact List.inj_on_of_nodup_map hg hs ht h

theorem nextReady_mem {remaining : List Stage} {done : List String} {s : Stage}
    (h : nextReady remaining done = some s) : s ∈ remaining := by
  have h' : List.find? (fun t => decide (∀ d ∈ t.deps, d ∈ done)) remaining
      = some s := h
  exact List.mem_of_find?_eq_some h'

theorem nextReady_deps {remaining : List Stage} {done : List String} {s : Stage}
    (h : nextReady remaining done = some s) : ∀ d ∈ s.deps, d ∈ done := by
  have h' : List.find? (fun t => decide (∀ d ∈ t.deps, d ∈ done)) remaining
      = some s := h
  have h2 := List.find?_some h'
  simpa using h2

theorem names_filter_subset (remaining : List Stage) (p : Stage → Bool) :
    ∀ x ∈ names (remaining.filter p), x ∈ names remaining := by
  intro x hx
  rcases List.mem_map.mp hx with ⟨t, ht, rfl⟩
  exact List.mem_map.mpr ⟨t, (List.mem_filter.mp ht).1, rfl⟩

theorem names_filter_nodup {remaining : List Stage} (p : Stage → Bool)
    (h : (names remaining).Nodup) : (names (remaining.filter p)).Nodup := by
  have hsub : List.Sublist ((remaining.filter p).map (·.name))
      (remaining.map (·.name)) :=
    (List.filter_sublist remaining).map (·.name)
  exact hsub.nodup h

/-- The combined soundness invariant of the Kahn iteration: when it succeeds,
the produced order extends `done`, has no duplicates, draws its names from
`done` and the remaining stages, and places every remaining stage strictly
after all of its declared dependencies. -/
theorem topoAux_sound {g : Graph} (hg : (names g).Nodup) :
    ∀ (fuel : Nat) (remaining : List Stage) (done order : List String),
      topoAux fuel remaining done = some order →
      (∀ t ∈ remaining, t ∈ g) →
      (∀ t ∈ remaining, t.name ∉ done) →
      (names remaining).Nodup →
      done.Nodup →
      (∃ tail, order = done ++ tail) ∧
      order.Nodup ∧
      (∀ x ∈ order, x ∈ done ∨ x ∈ names remaining) ∧
      (∀ t ∈ remaining, t.name ∈ order ∧
        ∀ d ∈ t.deps, d ∈ order ∧
          List.indexOf d order < List.indexOf t.name order) := by
  intro fuel
  induction fuel with
  | zero =>
    intro remaining done order h hsub hnotdone hnames hdone
    by_cases hr : remaining.isEmpty
    · simp only [topoAux, if_pos hr, Option.some.injEq] at h
      subst h
      have hrem : remaining = [] := List.isEmpty_iff.mp hr
      subst hrem
      exact ⟨⟨[], by simp⟩, hdone, fun x hx => Or.inl hx, by simp⟩
    · simp only [topoAux, if_neg hr] at h
      cases h
  | succ fuel ih =>
    intro remaining done order h hsub hnotdone hnames hdone
    cases hnr : nextReady remaining done with
    | none =>
      simp only [topoAux, hnr] at h
      by_cases hr : remaining.isEmpty
      · rw [if_pos hr] at h
        cases h
        have hrem : remaining = [] := List.isEmpty_iff.mp hr
        subst hrem
        exact ⟨⟨[], by simp⟩, hdone, fun x hx => Or.inl hx, by simp⟩
      · rw [if_neg hr] at h
        cases h
    | some s =>
      simp only [topoAux, hnr] at h
      have hs_mem : s ∈ remaining := nextReady_mem hnr
      have hpred : ∀ d ∈ s.deps, d ∈ done := nextReady_deps hnr
      have hs_not_done : s.name ∉ done := hnotdone s hs_mem
      have hdone' : (done ++ [s.name]).Nodup := by
        simp [List.nodup_append, hdone, hs_not_done]
      have hsub' : ∀ t ∈ remaining.filter (fun t => t.name != s.name), t ∈ g :=
        fun t ht => hsub t (List.mem_filter.mp ht).1
      have hnotdone' :
          ∀ t ∈ remaining.filter (fun t => t.name != s.name),
            t.name ∉ done ++ [s.name] := by
        intro t ht hmem
        have h1 := hnotdone t (List.mem_filter.mp ht).1
        have h2 : t.name ≠ s.name := by
          have := (List.mem_filter.mp ht).2
          simpa using this
        rcases List.mem_append.mp hmem with h3 | h3
        · exact h1 h3
        · exact h2 (List.mem_singleton.mp h3)
      obtain ⟨⟨tail', htail'⟩, hnodup', hfrom', hprop'⟩ :=
        ih (remaining.filter (fun t => t.name != s.name)) (done ++ [s.name])
          order h hsub' hnotdone' (names_filter_nodup _ hnames) hdone'
      have horder : order = done ++ (s.name :: tail') := by
        rw [htail', List.append_assoc]
        rfl
      refine ⟨⟨s.name :: tail', horder⟩, hnodup', ?_, ?_⟩
      · intro x hx
        rcases hfrom' x hx with h1 | h1
        · rcases List.mem_append.mp h1 with h2 | h2
          · exact Or.inl h2
          · refine Or.inr ?_
            have hx_eq : x = s.name := List.mem_singleton.mp h2
            subst hx_eq
            exact List.mem_map.mpr ⟨s, hs_mem, rfl⟩
        · exact Or.inr (names_filter_subset _ _ x h1)
      · intro t ht
        by_cases hts : t.name = s.name
        · have ht_eq : t = s := stage_name_inj hg (hsub t ht) (hsub s hs_mem) hts
          subst ht_eq
          constructor
          · rw [horder]
            exact List.mem_append_right _ (List.mem_cons_self _ _)
          · intro d hd
            have hd_done : d ∈ done := hpred d hd
            constructor
            · rw [horder]; exact List.mem_append_left _ hd_done
            · rw [horder, List.indexOf_append_of_mem hd_done,
                List.indexOf_append_of_not_mem hs_not_done,
                List.indexOf_cons_self]
              have := List.indexOf_lt_length.mpr hd_done
              omega
        · have ht' : t ∈ remaining.filter (fun t => t.name != s.name) :=
            List.mem_filter.mpr ⟨ht, by simpa using hts⟩
          exact hprop' t ht'

theorem chain_pred {R : String → String → Prop} :
    ∀ {a : String} {l : List String}, List.Chain R a l →
      ∀ m ∈ l, ∃ d ∈ a :: l, R d m := by
  intro a l
  induction l generalizing a with
  | nil => intro _ m hm; cases hm
  | cons b l' ih =>
    intro h m hm
    rcases List.chain_cons.mp h with ⟨hab, hbl⟩
    rcases List.mem_cons.mp hm with rfl | hm'
    · exact ⟨a, List.mem_cons_self _ _, hab⟩
    · rcases ih hbl m hm' with ⟨d, hd, hR⟩
      exact ⟨d, List.mem_cons_of_mem a hd, hR⟩

theorem cycle_mem_names {g : Graph} {c : List String} (hc : IsCycle g c) :
    ∀ m ∈ c, m ∈ names g := by
  cases c with
  | nil => exact hc.elim
  | cons n rest => exact hc.1

/-- Every node of a cycle has a declared dependency that is itself a node of
the cycle. -/
theorem cycle_pred {g : Graph} {c : List String} (hc : IsCycle g c) :
    ∀ m ∈ c, ∃ d ∈ c, hasDepEdge g d m := by
  cases c with
  | nil => exact hc.elim
  | cons n rest =>
    obtain ⟨hmem, hchain, hclose⟩ := hc
    intro m hm
    rcases List.mem_cons.mp hm with rfl | hm'
    · exact ⟨List.getLast (m :: rest) (List.cons_ne_nil m rest),
        List.getLast_mem _, hclose⟩
    · rcases chain_pred hchain m hm' with ⟨d, hd, hR⟩
      exact ⟨d, hd, hR⟩

/-- On a graph containing a cycle the Kahn iteration never schedules a cycle
node, so it gets stuck and reports failure. -/
theorem topoAux_cycle_none {g : Graph} (hg : (names g).Nodup)
    {c : List String} (hc : IsCycle g c) :
    ∀ (fuel : Nat) (remaining : List Stage) (done : List String),
      (∀ t ∈ remaining, t ∈ g) →
      (∀ m ∈ c, m ∉ done ∧ ∃ t ∈ remaining, t.name = m) →
      topoAux fuel remaining done = none := by
  have hcne : c ≠ [] := by
    cases c with
    | nil => exact hc.elim
    | cons n rest => exact List.cons_ne_nil n rest
  intro fuel
  induction fuel with
  | zero =>
    intro remaining done hsub hinv
    have hne : ¬remaining.isEmpty := by
      intro he
      have hrem : remaining = [] := List.isEmpty_iff.mp he
      subst hrem
      rcases List.exists_mem_of_ne_nil c hcne with ⟨m, hm⟩
      rcases (hinv m hm).2 with ⟨t, ht, _⟩
      cases ht
    simp [topoAux, hne]
  | succ fuel ih =>
    intro remaining done hsub hinv
    cases hnr : nextReady remaining done with
    | none =>
      have hne : ¬remaining.isEmpty := by
        intro he
        have hrem : remaining = [] := List.isEmpty_iff.mp he
        subst hrem
        rcases List.exists_mem_of_ne_nil c hcne with ⟨m, hm⟩
        rcases (hinv m hm).2 with ⟨t, ht, _⟩
        cases ht
      simp [topoAux, hnr, hne]
    | some s =>
      simp only [topoAux, hnr]
      have hs_mem : s ∈ remaining := nextReady_mem hnr
      have hpred : ∀ d ∈ s.deps, d ∈ done := nextReady_deps hnr
      have hs_not_c : s.name ∉ c := by
        intro hin
        rcases cycle_pred hc s.name hin with ⟨d, hd, u, hu, huname, hdep⟩
        have hu_eq : u = s := stage_name_inj hg hu (hsub s hs_mem) huname
        subst hu_eq
        exact (hinv d hd).1 (hpred d hdep)
      apply ih
      · intro t ht
        exact hsub t (List.mem_filter.mp ht).1
      · intro m hm
        have h1 := (hinv m hm).1
        have h2 : m ≠ s.name := fun he => hs_not_c (he ▸ hm)
        constructor
        · intro hmem
          rcases List.mem_append.mp hmem with h3 | h3
          · exact h1 h3
          · exact h2 (List.mem_singleton.mp h3)
        · rcases (hinv m hm).2 with ⟨t, ht, htm⟩
          refine ⟨t, List.mem_filter.mpr ⟨ht, ?_⟩, htm⟩
          have : t.name ≠ s.name := htm ▸ h2
          simpa using this

theorem topoSort_cycle {g : Graph} (hg : (names g).Nodup)
    {c : List String} (hc : IsCycle g c) :
    topoSort g = .error .GraphCycleError := by
  unfold topoSort
  rw [topoAux_cycle_none hg hc g.length g [] (fun t ht => ht) ?_]
  intro m hm
  refine ⟨by simp, ?_⟩
  rcases List.mem_map.mp (cycle_mem_names hc m hm) with ⟨t, ht, htm⟩
  exact ⟨t, ht, htm⟩

end Orchestration

namespace Orchestration

theorem topoSort_ok_aux {g : Graph} {order : List String}
    (h : topoSort g = .ok order) : topoAux g.length g [] = some order := by
  unfold topoSort at h
  cases he : topoAux g.length g [] with
  | none => rw [he] at h; cases h
  | some o =>
    rw [he] at h
    injection h with h'
    rw [h']

/-- C1: for every dependency graph the orchestrator accepts (distinct stage
names and a successfully computed topological order — in particular every
valid acyclic graph), the computed execution order contains every stage and
places it strictly after every one of its declared upstream dependencies. -/
theorem topo_order_places_stage_after_deps (g : Graph) (order : List String)
    (hg : (names g).Nodup) (h : topoSort g = .ok order) :
    ∀ s ∈ g, s.name ∈ order ∧
      ∀ d ∈ s.deps, d ∈ order ∧
        List.indexOf d order < List.indexOf s.name order := by
  have haux := topoSort_ok_aux h
  have hs := topoAux_sound hg g.length g [] order haux (fun t ht => ht)
    (by simp) hg List.nodup_nil
  exact hs.2.2.2

/-- A small concrete three-stage pipeline (raw → prepared → transformed) used
by the witnesses. -/
def wRaw : Stage := ⟨"raw", [], fun _ => some [1, 2, 3]⟩

def wPrep : Stage :=
  ⟨"prepared", ["raw"], fun xs => some ((xs.headD []).map (fun b => b + 1))⟩

def wTrans : Stage :=
  ⟨"transformed", ["prepared"], fun xs => some ((xs.headD []).map (· * 2))⟩

def wGraph : Graph := [wRaw, wPrep, wTrans]

/-- Witness for C1 on the three-stage graph raw → prepared → transformed. -/
theorem topo_order_places_stage_after_deps_witness :
    (names wGraph).Nodup ∧
    topoSort wGraph = .ok ["raw", "prepared", "transformed"] ∧
    ∀ s ∈ wGraph, s.name ∈ ["raw", "prepared", "transformed"] ∧
      ∀ d ∈ s.deps, d ∈ ["raw", "prepared", "transformed"] ∧
        List.indexOf d ["raw", "prepared", "transformed"] <
          List.indexOf s.name ["raw", "prepared", "transformed"] := by
  have h1 : (names wGraph).Nodup := by decide
  have h2 : topoSort wGraph = .ok ["raw", "prepared", "transformed"] := rfl
  exact ⟨h1, h2, topo_order_places_stage_after_deps wGraph _ h1 h2⟩

/-- C2: a run on a graph (with distinct stage names) whose dependency graph
contains a cycle fails with `GraphCycleError`, invokes no stage, and leaves
the artifact store exactly as it was. -/
theorem cycle_fails_fast_no_artifacts (g : Graph) (store0 : Store)
    (c : List String) (hg : (names g).Nodup) (hc : IsCycle g c) :
    (runPipeline g store0).result = .error .GraphCycleError ∧
    (runPipeline g store0).store = store0 ∧
    (runPipeline g store0).invoked = [] := by
  have h := topoSort_cycle hg hc
  unfold runPipeline
  rw [h]
  exact ⟨rfl, rfl, rfl⟩

/-- The spec's example cycle A→B, B→A. -/
def wCycA : Stage := ⟨"A", ["B"], fun _ => some []⟩

def wCycB : Stage := ⟨"B", ["A"], fun _ => some []⟩

def wCycGraph : Graph := [wCycA, wCycB]

theorem wCyc_isCycle : IsCycle wCycGraph ["A", "B"] := by
  refine ⟨by decide, ?_, ?_⟩
  · refine List.chain_cons.mpr ⟨?_, List.Chain.nil⟩
    exact ⟨wCycB, List.mem_cons_of_mem _ (List.mem_cons_self _ _), rfl,
      List.mem_cons_self _ _⟩
  · show hasDepEdge wCycGraph "B" "A"
    exact ⟨wCycA, List.mem_cons_self _ _, rfl, List.mem_cons_self _ _⟩

/-- Witness for C2 on the two-stage cycle A→B, B→A with an empty store. -/
theorem cycle_fails_fast_no_artifacts_witness :
    (names wCycGraph).Nodup ∧ IsCycle wCycGraph ["A", "B"] ∧
    (runPipeline wCycGraph []).result = .error .GraphCycleError ∧
    (runPipeline wCycGraph []).store = [] ∧
    (runPipeline wCycGraph []).invoked = [] := by
  have h1 : (names wCycGraph).Nodup := by decide
  have h3 := cycle_fails_fast_no_artifacts wCycGraph [] ["A", "B"] h1
    wCyc_isCycle
  exact ⟨h1, wCyc_isCycle, h3.1, h3.2.1, h3.2.2⟩

end Orchestration

namespace Orchestration

theorem lookupA_append_left {β : Type} {l : List (String × β)} {k : String}
    {v : β} (h : lookupA l k = some v) (l' : List (String × β)) :
    lookupA (l ++ l') k = some v := by
  induction l with
  | nil => cases h
  | cons p rest ih =>
    obtain ⟨k', v'⟩ := p
    by_cases hk : k' = k
    · simp only [lookupA, if_pos hk] at h
      simp only [List.cons_append, lookupA, if_pos hk]
      exact h
    · simp only [lookupA, if_neg hk] at h
      simp only [List.cons_append, lookupA, if_neg hk]
      exact ih h

theorem lookupA_append_none {β : Type} {l : List (String × β)} {k : String}
    (h : lookupA l k = none) (l' : List (String × β)) :
    lookupA (l ++ l') k = lookupA l' k := by
  induction l with
  | nil => simp
  | cons p rest ih =>
    obtain ⟨k', v'⟩ := p
    by_cases hk : k' = k
    · simp only [lookupA, if_pos hk] at h
      cases h
    · simp only [lookupA, if_neg hk] at h
      simp only [List.cons_append, lookupA, if_neg hk]
      exact ih h

theorem lookupA_setA {β : Type} (l : List (String × β)) (k m : String) (v : β) :
    lookupA (setA l k v) m = if k = m then some v else lookupA l m := by
  induction l with
  | nil => simp [setA, lookupA]
  | cons p rest ih =>
    obtain ⟨k', v'⟩ := p
    by_cases hk : k' = k
    · subst hk
      by_cases hm : k' = m
      · simp [setA, lookupA, hm]
      · simp [setA, lookupA, hm]
    · by_cases hm : k' = m
      · subst hm
        have hkm : ¬k = k' := fun he => hk he.symm
        simp [setA, lookupA, hk, hkm]
      · simp [setA, lookupA, hk, hm, ih]

theorem setA_id {β : Type} {l : List (String × β)} {k : String} {v : β}
    (h : lookupA l k = some v) : setA l k v = l := by
  induction l with
  | nil => cases h
  | cons p rest ih =>
    obtain ⟨k', v'⟩ := p
    by_cases hk : k' = k
    · subst hk
      simp only [lookupA] at h
      rw [if_pos trivial] at h
      injection h with h'
      simp [setA, h']
    · simp only [lookupA, if_neg hk] at h
      simp [setA, hk, ih h]

theorem readInputs_congr {A B : Store}
    (deps : List String) (h : ∀ d ∈ deps, lookupA A d = lookupA B d) :
    readInputs A deps = readInputs B deps := by
  induction deps with
  | nil => rfl
  | cons d ds ih =>
    have hd := h d (List.mem_cons_self d ds)
    have hds := ih (fun x hx => h x (List.mem_cons_of_mem d hx))
    simp only [readInputs, hd, hds]

theorem depsSucceeded_all {statuses : List (String × StageStatus)}
    {deps : List String} (h : depsSucceeded statuses deps = true) :
    ∀ d ∈ deps, lookupA statuses d = some .Success :=
  of_decide_eq_true h

theorem depsSucceeded_false {statuses : List (String × StageStatus)}
    {deps : List String} {d : String} (hd : d ∈ deps)
    (h : lookupA statuses d ≠ some .Success) :
    depsSucceeded statuses deps = false := by
  apply decide_eq_false
  intro hall
  exact h (hall d hd)

theorem execStep_statuses_append (g : Graph) (st : ExecState) (n : String) :
    ∃ tail, (execStep g st n).statuses = st.statuses ++ tail ∧
      (tail = [] ∨ ∃ v, tail = [(n, v)]) := by
  unfold execStep
  cases hf : g.find? (fun s => s.name == n) with
  | none => exact ⟨[], by simp, Or.inl rfl⟩
  | some s =>
    cases hd : depsSucceeded st.statuses s.deps with
    | false =>
      exact ⟨[(n, .UpstreamFailed)], by simp [hd], Or.inr ⟨_, rfl⟩⟩
    | true =>
      cases hr : readInputs st.store s.deps with
      | none => exact ⟨[(n, .Failed)], by simp [hd, hr], Or.inr ⟨_, rfl⟩⟩
      | some ins =>
        cases ht : s.transform ins with
        | none => exact ⟨[(n, .Failed)], by simp [hd, hr, ht], Or.inr ⟨_, rfl⟩⟩
        | some out =>
          exact ⟨[(n, .Success)], by simp [hd, hr, ht], Or.inr ⟨_, rfl⟩⟩

theorem execStep_statuses_assigned {g : Graph} {n : String}
    (hf : (g.find? (fun s => s.name == n)).isSome) (st : ExecState) :
    ∃ v, (execStep g st n).statuses = st.statuses ++ [(n, v)] := by
  unfold execStep
  cases hfe : g.find? (fun s => s.name == n) with
  | none => rw [hfe] at hf; cases hf
  | some s =>
    cases hd : depsSucceeded st.statuses s.deps with
    | false => exact ⟨.UpstreamFailed, by simp [hd]⟩
    | true =>
      cases hr : readInputs st.store s.deps with
      | none => exact ⟨.Failed, by simp [hd, hr]⟩
      | some ins =>
        cases ht : s.transform ins with
        | none => exact ⟨.Failed, by simp [hd, hr, ht]⟩
        | some out => exact ⟨.Success, by simp [hd, hr, ht]⟩

theorem execStep_store (g : Graph) (st : ExecState) (n : String) :
    (execStep g st n).store = st.store ∨
    ∃ v, (execStep g st n).store = setA st.store n v := by
  unfold execStep
  cases hf : g.find? (fun s => s.name == n) with
  | none => exact Or.inl rfl
  | some s =>
    cases hd : depsSucceeded st.statuses s.deps with
    | false => exact Or.inl (by simp [hd])
    | true =>
      cases hr : readInputs st.store s.deps with
      | none => exact Or.inl (by simp [hd, hr])
      | some ins =>
        cases ht : s.transform ins with
        | none => exact Or.inl (by simp [hd, hr, ht])
        | some out => exact Or.inr ⟨out, by simp [hd, hr, ht]⟩

theorem execStep_invoked (g : Graph) (st : ExecState) (n : String) :
    (execStep g st n).invoked = st.invoked ∨
    (execStep g st n).invoked = st.invoked ++ [n] := by
  unfold execStep
  cases hf : g.find? (fun s => s.name == n) with
  | none => exact Or.inl rfl
  | some s =>
    cases hd : depsSucceeded st.statuses s.deps with
    | false => exact Or.inl (by simp [hd])
    | true =>
      cases hr : readInputs st.store s.deps with
      | none => exact Or.inl (by simp [hd, hr])
      | some ins =>
        cases ht : s.transform ins with
        | none => exact Or.inr (by simp [hd, hr, ht])
        | some out => exact Or.inr (by simp [hd, hr, ht])

theorem execStep_upstream {g : Graph} {st : ExecState} {n : String} {s : Stage}
    (hf : g.find? (fun t => t.name == n) = some s)
    (hd : depsSucceeded st.statuses s.deps = false) :
    execStep g st n =
      { st with statuses := st.statuses ++ [(n, .UpstreamFailed)] } := by
  unfold execStep
  rw [hf]
  simp [hd]

theorem execStages_statuses_stable (g : Graph) :
    ∀ (l : List String) (st : ExecState) (k : String) (v : StageStatus),
      lookupA st.statuses k = some v →
      lookupA (execStages g l st).statuses k = some v := by
  intro l
  induction l with
  | nil => intro st k v h; exact h
  | cons n rest ih =>
    intro st k v h
    show lookupA (execStages g rest (execStep g st n)).statuses k = some v
    apply ih
    rcases execStep_statuses_append g st n with ⟨tail, htail, _⟩
    rw [htail]
    exact lookupA_append_left h tail

theorem execStages_statuses_none (g : Graph) :
    ∀ (l : List String) (st : ExecState) (k : String),
      k ∉ l → lookupA st.statuses k = none →
      lookupA (execStages g l st).statuses k = none := by
  intro l
  induction l with
  | nil => intro st k _ h; exact h
  | cons n rest ih =>
    intro st k hk h
    have hkn : k ≠ n := fun he => hk (he ▸ List.mem_cons_self n rest)
    have hkr : k ∉ rest := fun hm => hk (List.mem_cons_of_mem n hm)
    show lookupA (execStages g rest (execStep g st n)).statuses k = none
    apply ih _ _ hkr
    rcases execStep_statuses_append g st n with ⟨tail, htail, hcases⟩
    rw [htail, lookupA_append_none h]
    rcases hcases with rfl | ⟨v, rfl⟩
    · rfl
    · have hnk : ¬n = k := Ne.symm hkn
      simp [lookupA, hnk]

theorem execStages_statuses_assigned (g : Graph) :
    ∀ (l : List String) (st : ExecState) (n : String),
      n ∈ l → (g.find? (fun s => s.name == n)).isSome →
      ∃ v, lookupA (execStages g l st).statuses n = some v := by
  intro l
  induction l with
  | nil => intro st n hn; cases hn
  | cons m rest ih =>
    intro st n hn hf
    by_cases hmn : m = n
    · subst hmn
      rcases execStep_statuses_assigned hf st with ⟨v, hv⟩
      show ∃ v, lookupA (execStages g rest (execStep g st m)).statuses m = some v
      cases h0 : lookupA st.statuses m with
      | some w =>
        refine ⟨w, execStages_statuses_stable g rest _ m w ?_⟩
        rw [hv]
        exact lookupA_append_left h0 _
      | none =>
        refine ⟨v, execStages_statuses_stable g rest _ m v ?_⟩
        rw [hv, lookupA_append_none h0]
        simp [lookupA]
    · have hn' : n ∈ rest := by
        rcases List.mem_cons.mp hn with he | hm'
        · exact absurd he.symm hmn
        · exact hm'
      exact ih (execStep g st m) n hn' hf

theorem execStages_store_stable (g : Graph) :
    ∀ (l : List String) (st : ExecState) (k : String),
      k ∉ l →
      lookupA (execStages g l st).store k = lookupA st.store k := by
  intro l
  induction l with
  | nil => intro st k _; rfl
  | cons n rest ih =>
    intro st k hk
    have hkn : k ≠ n := fun he => hk (he ▸ List.mem_cons_self n rest)
    have hkr : k ∉ rest := fun hm => hk (List.mem_cons_of_mem n hm)
    show lookupA (execStages g rest (execStep g st n)).store k
      = lookupA st.store k
    rw [ih _ _ hkr]
    rcases execStep_store g st n with h | ⟨v, h⟩
    · rw [h]
    · rw [h, lookupA_setA, if_neg (fun he => hkn he.symm)]

theorem execStages_invoked_from (g : Graph) :
    ∀ (l : List String) (st : ExecState) (x : String),
      x ∈ (execStages g l st).invoked → x ∈ st.invoked ∨ x ∈ l := by
  intro l
  induction l with
  | nil => intro st x h; exact Or.inl h
  | cons n rest ih =>
    intro st x h
    rcases ih (execStep g st n) x h with h1 | h1
    · rcases execStep_invoked g st n with h2 | h2
      · rw [h2] at h1; exact Or.inl h1
      · rw [h2] at h1
        rcases List.mem_append.mp h1 with h3 | h3
        · exact Or.inl h3
        · exact Or.inr (List.mem_singleton.mp h3 ▸ List.mem_cons_self n rest)
    · exact Or.inr (List.mem_cons_of_mem n h1)

theorem execStages_append (g : Graph) :
    ∀ (xs ys : List String) (st : ExecState),
      execStages g (xs ++ ys) st = execStages g ys (execStages g xs st) := by
  intro xs
  induction xs with
  | nil => intro ys st; rfl
  | cons n xs' ih =>
    intro ys st
    show execStages g (xs' ++ ys) (execStep g st n)
      = execStages g ys (execStages g xs' (execStep g st n))
    exact ih ys (execStep g st n)

theorem find?_name_of_mem :
    ∀ {g : Graph}, (names g).Nodup → ∀ {B : Stage}, B ∈ g →
      g.find? (fun s => s.name == B.name) = some B := by
  intro g
  induction g with
  | nil => intro _ B hB; cases hB
  | cons t rest ih =>
    intro hg B hB
    have hg' : t.name ∉ names rest ∧ (names rest).Nodup := by
      have hshape : names (t :: rest) = t.name :: names rest := rfl
      rw [hshape] at hg
      exact ⟨(List.nodup_cons.mp hg).1, (List.nodup_cons.mp hg).2⟩
    rcases List.mem_cons.mp hB with rfl | hB'
    · simp [List.find?_cons]
    · have htB : (t.name == B.name) = false := by
        apply beq_eq_false_iff_ne.mpr
        intro he
        exact hg'.1 (he ▸ List.mem_map.mpr ⟨B, hB', rfl⟩)
      rw [List.find?_cons, htB]
      exact ih hg'.2 hB'

end Orchestration

namespace Orchestration

theorem find?_isSome_of_name_mem {g : Graph} (hg : (names g).Nodup)
    {a : String} (ha : a ∈ names g) :
    (g.find? (fun s => s.name == a)).isSome := by
  rcases List.mem_map.mp ha with ⟨t, ht, hta⟩
  rw [← hta, find?_name_of_mem hg ht]
  rfl

/-- C3: in a run over a graph with distinct stage names, if stage `B` declares
dependency `a` and `a`'s terminal status is `Failed`, then `B`'s terminal
status is `UpstreamFailed` and `B`'s transformation is never invoked. -/
theorem upstream_failure_skips_dependent (g : Graph) (store0 : Store)
    (hg : (names g).Nodup) (statuses : List (String × StageStatus))
    (hrun : (runPipeline g store0).result = .ok statuses)
    (B : Stage) (hB : B ∈ g) (a : String) (ha : a ∈ B.deps)
    (hafail : lookupA statuses a = some .Failed) :
    lookupA statuses B.name = some .UpstreamFailed ∧
    B.name ∉ (runPipeline g store0).invoked := by
  cases htopo : topoSort g with
  | error e =>
    simp only [runPipeline, htopo] at hrun
    cases hrun
  | ok order =>
    simp only [runPipeline, htopo] at hrun ⊢
    injection hrun with hstat
    subst hstat
    set init : ExecState := ⟨[], store0, []⟩ with hinit
    have haux := topoSort_ok_aux htopo
    have hsound := topoAux_sound hg g.length g [] order haux (fun t ht => ht)
      (by simp) hg List.nodup_nil
    have hnodup : order.Nodup := hsound.2.1
    have hfrom : ∀ x ∈ order, x ∈ names g := by
      intro x hx
      rcases hsound.2.2.1 x hx with h | h
      · cases h
      · exact h
    have hBprop := hsound.2.2.2 B hB
    have haorder : a ∈ order := (hBprop.2 a ha).1
    have hidx : List.indexOf a order < List.indexOf B.name order :=
      (hBprop.2 a ha).2
    obtain ⟨l1, l2, horder⟩ := List.append_of_mem hBprop.1
    have hnodup' := horder ▸ hnodup
    rw [List.nodup_middle] at hnodup'
    have hBnn : B.name ∉ l1 ++ l2 := (List.nodup_cons.mp hnodup').1
    have hBn1 : B.name ∉ l1 := fun h => hBnn (List.mem_append_left _ h)
    have hBn2 : B.name ∉ l2 := fun h => hBnn (List.mem_append_right _ h)
    have haB : a ≠ B.name := by
      intro he
      rw [he] at hidx
      exact lt_irrefl _ hidx
    have hidxB : List.indexOf B.name order = l1.length := by
      rw [horder, List.indexOf_append_of_not_mem hBn1, List.indexOf_cons_self]
      omega
    have hal1 : a ∈ l1 := by
      by_cases hmem : a ∈ l1
      · exact hmem
      · exfalso
        have h1 : a ∈ B.name :: l2 := by
          rcases List.mem_append.mp (horder ▸ haorder) with h | h
          · exact absurd h hmem
          · exact h
        have h2 : a ∈ l2 := by
          rcases List.mem_cons.mp h1 with h | h
          · exact absurd h haB
          · exact h
        have h3 : List.indexOf a order = l1.length + (List.indexOf a l2).succ := by
          rw [horder, List.indexOf_append_of_not_mem hmem,
            List.indexOf_cons_ne _ (Ne.symm haB)]
        rw [h3, hidxB] at hidx
        omega
    have hfind_a : (g.find? (fun s => s.name == a)).isSome :=
      find?_isSome_of_name_mem hg (hfrom a haorder)
    -- run decomposition at B's position
    have hdec : execStages g order init
        = execStages g l2 (execStep g (execStages g l1 init) B.name) := by
      rw [horder, execStages_append]
      rfl
    set st1 : ExecState := execStages g l1 init with hst1
    obtain ⟨v, hv⟩ := execStages_statuses_assigned g l1 init a hal1 hfind_a
    have hvstable : lookupA (execStages g order init).statuses a = some v := by
      rw [horder, execStages_append]
      exact execStages_statuses_stable g (B.name :: l2) st1 a v hv
    have hvF : v = .Failed := by
      rw [hvstable] at hafail
      exact Option.some.inj hafail
    subst hvF
    have hfindB := find?_name_of_mem hg hB
    have hdepsfalse : depsSucceeded st1.statuses B.deps = false := by
      refine depsSucceeded_false ha ?_
      rw [hv]
      simp
    have hstep := execStep_upstream hfindB hdepsfalse
    have hBnone : lookupA st1.statuses B.name = none :=
      execStages_statuses_none g l1 init B.name hBn1 rfl
    have hBafter :
        lookupA (execStep g st1 B.name).statuses B.name
          = some .UpstreamFailed := by
      rw [hstep]
      show lookupA (st1.statuses ++ [(B.name, .UpstreamFailed)]) B.name
        = some .UpstreamFailed
      rw [lookupA_append_none hBnone]
      simp [lookupA]
    constructor
    · rw [hdec]
      exact execStages_statuses_stable g l2 _ B.name _ hBafter
    · intro hmem
      rw [hdec] at hmem
      rcases execStages_invoked_from g l2 _ B.name hmem with h1 | h1
      · rw [hstep] at h1
        have h1' : B.name ∈ st1.invoked := h1
        rcases execStages_invoked_from g l1 init B.name h1' with h2 | h2
        · cases h2
        · exact hBn1 h2
      · exact hBn2 h1

/-- A two-stage graph whose first stage fails: A (transform fails) ← B. -/
def wFailA : Stage := ⟨"A", [], fun _ => none⟩

def wDepB : Stage := ⟨"B", ["A"], fun _ => some []⟩

def wFailGraph : Graph := [wFailA, wDepB]

/-- Witness for C3: stage A fails, so B is `UpstreamFailed` and never
invoked. -/
theorem upstream_failure_skips_dependent_witness :
    (names wFailGraph).Nodup ∧
    (runPipeline wFailGraph []).result =
      .ok [("A", .Failed), ("B", .UpstreamFailed)] ∧
    wDepB ∈ wFailGraph ∧ "A" ∈ wDepB.deps ∧
    lookupA [("A", StageStatus.Failed), ("B", StageStatus.UpstreamFailed)] "A"
      = some .Failed ∧
    lookupA [("A", StageStatus.Failed), ("B", StageStatus.UpstreamFailed)] "B"
      = some .UpstreamFailed ∧
    "B" ∉ (runPipeline wFailGraph []).invoked := by
  have h1 : (names wFailGraph).Nodup := by decide
  have h2 : (runPipeline wFailGraph []).result =
      .ok [("A", .Failed), ("B", .UpstreamFailed)] := rfl
  have h3 : wDepB ∈ wFailGraph :=
    List.mem_cons_of_mem _ (List.mem_cons_self _ _)
  have h4 : "A" ∈ wDepB.deps := List.mem_cons_self _ _
  have h5 : lookupA
      [("A", StageStatus.Failed), ("B", StageStatus.UpstreamFailed)] "A"
      = some .Failed := rfl
  have hmain := upstream_failure_skips_dependent wFailGraph [] h1 _ h2
    wDepB h3 "A" h4 h5
  exact ⟨h1, h2, h3, h4, h5, hmain.1, hmain.2⟩

end Orchestration

namespace Orchestration

theorem lookupA_append_single_isSome {l : List (String × StageStatus)}
    {n k : String} {v : StageStatus}
    (h : (lookupA (l ++ [(n, v)]) k).isSome) :
    (lookupA l k).isSome ∨ k = n := by
  cases h0 : lookupA l k with
  | some w => exact Or.inl rfl
  | none =>
    rw [lookupA_append_none h0] at h
    by_cases hk : n = k
    · exact Or.inr hk.symm
    · rw [show lookupA [(n, v)] k = none from by simp [lookupA, hk]] at h
      cases h

/-- A second execution of the same order, started from the final store of the
first execution, reproduces the statuses of the first execution and leaves the
store exactly as the first execution left it. -/
theorem exec_idem (g : Graph) :
    ∀ (rest : List String) (st1 st2 : ExecState),
      st2.statuses = st1.statuses →
      st2.store = (execStages g rest st1).store →
      rest.Nodup →
      (∀ k, (lookupA st1.statuses k).isSome → k ∉ rest) →
      (execStages g rest st2).statuses = (execStages g rest st1).statuses ∧
      (execStages g rest st2).store = (execStages g rest st1).store := by
  intro rest
  induction rest with
  | nil =>
    intro st1 st2 h1 h2 _ _
    exact ⟨h1, h2⟩
  | cons n rest' ih =>
    intro st1 st2 h1 h2 hnodup hkeys
    have hnodup' : rest'.Nodup := (List.nodup_cons.mp hnodup).2
    have hn_rest' : n ∉ rest' := (List.nodup_cons.mp hnodup).1
    show (execStages g rest' (execStep g st2 n)).statuses
        = (execStages g rest' (execStep g st1 n)).statuses ∧
      (execStages g rest' (execStep g st2 n)).store
        = (execStages g rest' (execStep g st1 n)).store
    have h2' : st2.store = (execStages g rest' (execStep g st1 n)).store := h2
    have hkeys' : ∀ k, (lookupA (execStep g st1 n).statuses k).isSome →
        k ∉ rest' := by
      intro k hk
      rcases execStep_statuses_append g st1 n with ⟨tail, htail, hcase⟩
      rw [htail] at hk
      rcases hcase with rfl | ⟨v, rfl⟩
      · rw [List.append_nil] at hk
        exact fun hmem => (hkeys k hk) (List.mem_cons_of_mem n hmem)
      · rcases lookupA_append_single_isSome hk with h | rfl
        · exact fun hmem => (hkeys k h) (List.mem_cons_of_mem n hmem)
        · exact hn_rest'
    cases hf : g.find? (fun s => s.name == n) with
    | none =>
      have e1 : execStep g st1 n = st1 := by
        unfold execStep
        rw [hf]
      have e2 : execStep g st2 n = st2 := by
        unfold execStep
        rw [hf]
      rw [e1, e2]
      rw [e1] at h2'
      exact ih st1 st2 h1 h2' hnodup'
        (fun k hk hmem => hkeys k hk (List.mem_cons_of_mem n hmem))
    | some s =>
      cases hd : depsSucceeded st1.statuses s.deps with
      | false =>
        have hd2 : depsSucceeded st2.statuses s.deps = false := by
          rw [h1]
          exact hd
        have e1 := execStep_upstream hf hd
        have e2 := execStep_upstream hf hd2
        apply ih
        · rw [e1, e2]
          show st2.statuses ++ [(n, StageStatus.UpstreamFailed)]
            = st1.statuses ++ [(n, StageStatus.UpstreamFailed)]
          rw [h1]
        · rw [e2]
          exact h2'
        · exact hnodup'
        · exact hkeys'
      | true =>
        have hd2 : depsSucceeded st2.statuses s.deps = true := by
          rw [h1]
          exact hd
        have hinputs : readInputs st2.store s.deps
            = readInputs st1.store s.deps := by
          apply readInputs_congr
          intro d hdmem
          have hds : lookupA st1.statuses d = some .Success :=
            depsSucceeded_all hd d hdmem
          have hdnot : d ∉ n :: rest' := hkeys d (by rw [hds]; rfl)
          rw [h2']
          exact execStages_store_stable g (n :: rest') st1 d hdnot
        cases hr : readInputs st1.store s.deps with
        | none =>
          have e1 : execStep g st1 n
              = { st1 with statuses := st1.statuses ++ [(n, .Failed)] } := by
            unfold execStep
            rw [hf]
            simp [hd, hr]
          have e2 : execStep g st2 n
              = { st2 with statuses := st2.statuses ++ [(n, .Failed)] } := by
            unfold execStep
            rw [hf]
            simp [hd2, hinputs, hr]
          apply ih
          · rw [e1, e2]
            show st2.statuses ++ [(n, StageStatus.Failed)]
              = st1.statuses ++ [(n, StageStatus.Failed)]
            rw [h1]
          · rw [e2]
            exact h2'
          · exact hnodup'
          · exact hkeys'
        | some ins =>
          cases ht : s.transform ins with
          | none =>
            have e1 : execStep g st1 n
                = { st1 with statuses := st1.statuses ++ [(n, .Failed)],
                             invoked := st1.invoked ++ [n] } := by
              unfold execStep
              rw [hf]
              simp [hd, hr, ht]
            have e2 : execStep g st2 n
                = { st2 with statuses := st2.statuses ++ [(n, .Failed)],
                             invoked := st2.invoked ++ [n] } := by
              unfold execStep
              rw [hf]
              simp [hd2, hinputs, hr, ht]
            apply ih
            · rw [e1, e2]
              show st2.statuses ++ [(n, StageStatus.Failed)]
                = st1.statuses ++ [(n, StageStatus.Failed)]
              rw [h1]
            · rw [e2]
              exact h2'
            · exact hnodup'
            · exact hkeys'
          | some out =>
            have e1 : execStep g st1 n
                = { statuses := st1.statuses ++ [(n, .Success)],
                    store := setA st1.store n out,
                    invoked := st1.invoked ++ [n] } := by
              unfold execStep
              rw [hf]
              simp [hd, hr, ht]
            have e2 : execStep g st2 n
                = { statuses := st2.statuses ++ [(n, .Success)],
                    store := setA st2.store n out,
                    invoked := st2.invoked ++ [n] } := by
              unfold execStep
              rw [hf]
              simp [hd2, hinputs, hr, ht]
            have hFn : lookupA
                (execStages g rest' (execStep g st1 n)).store n = some out := by
              rw [execStages_store_stable g rest' _ n hn_rest', e1]
              show lookupA (setA st1.store n out) n = some out
              rw [lookupA_setA, if_pos rfl]
            apply ih
            · rw [e1, e2]
              show st2.statuses ++ [(n, StageStatus.Success)]
                = st1.statuses ++ [(n, StageStatus.Success)]
              rw [h1]
            · rw [e2]
              show setA st2.store n out
                = (execStages g rest' (execStep g st1 n)).store
              rw [h2']
              exact setA_id hFn
            · exact hnodup'
            · exact hkeys'

/-- C4: rerunning the whole pipeline with unchanged inputs (starting from the
store the first run produced) reproduces the same run result, leaves the
artifact store byte-for-byte identical — so every stage's second invocation
yields identical output bytes — and in particular changes no existing
artifact's content fingerprint. -/
theorem second_run_changes_no_artifact (g : Graph) (store0 : Store)
    (order : List String) (hg : (names g).Nodup)
    (htopo : topoSort g = .ok order) :
    (runPipeline g (runPipeline g store0).store).result
      = (runPipeline g store0).result ∧
    (runPipeline g (runPipeline g store0).store).store
      = (runPipeline g store0).store ∧
    ∀ n v, lookupA (runPipeline g store0).store n = some v →
      ∃ v2, lookupA (runPipeline g (runPipeline g store0).store).store n
          = some v2 ∧ fingerprint v2 = fingerprint v := by
  have hnodup : order.Nodup := (topoAux_sound hg g.length g [] order
    (topoSort_ok_aux htopo) (fun t ht => ht) (by simp) hg List.nodup_nil).2.1
  have hidem := exec_idem g order (⟨[], store0, []⟩ : ExecState)
    (⟨[], (execStages g order ⟨[], store0, []⟩).store, []⟩ : ExecState)
    rfl rfl hnodup (fun k hk => nomatch hk)
  have hrp : ∀ s0 : Store, runPipeline g s0 =
      { result := .ok (execStages g order ⟨[], s0, []⟩).statuses,
        store := (execStages g order ⟨[], s0, []⟩).store,
        invoked := (execStages g order ⟨[], s0, []⟩).invoked } := by
    intro s0
    simp [runPipeline, htopo]
  rw [hrp store0]
  rw [hrp ((execStages g order ⟨[], store0, []⟩).store)]
  refine ⟨?_, ?_, ?_⟩
  · show Except.ok
        (execStages g order ⟨[], (execStages g order ⟨[], store0, []⟩).store,
          []⟩).statuses
      = Except.ok (execStages g order ⟨[], store0, []⟩).statuses
    rw [hidem.1]
  · exact hidem.2
  · intro n v hv
    exact ⟨v, by rw [hidem.2]; exact hv, rfl⟩

/-- Witness for C4 on the three-stage graph raw → prepared → transformed
starting from the empty store. -/
theorem second_run_changes_no_artifact_witness :
    (names wGraph).Nodup ∧
    topoSort wGraph = .ok ["raw", "prepared", "transformed"] ∧
    (runPipeline wGraph (runPipeline wGraph []).store).result
      = (runPipeline wGraph []).result ∧
    (runPipeline wGraph (runPipeline wGraph []).store).store
      = (runPipeline wGraph []).store := by
  have h1 : (names wGraph).Nodup := by decide
  have h2 : topoSort wGraph = .ok ["raw", "prepared", "transformed"] := rfl
  have hmain := second_run_changes_no_artifact wGraph []
    ["raw", "prepared", "transformed"] h1 h2
  exact ⟨h1, h2, hmain.1, hmain.2.1⟩

end Orchestration

namespace Orchestration

theorem summarize_success_iff (statuses : List (String × StageStatus)) :
    summarize statuses = .SUCCESS ↔ ∀ p ∈ statuses, p.2 = .Success := by
  have key : ((statuses.filter (fun p => p.2 != .Success)).map (·.1)).isEmpty
      = true ↔ ∀ p ∈ statuses, p.2 = .Success := by
    rw [List.isEmpty_iff, List.map_eq_nil_iff, List.filter_eq_nil_iff]
    constructor
    · intro h p hp
      have := h p hp
      simpa using this
    · intro h p hp
      simp [h p hp]
  simp only [summarize]
  by_cases hb : ((statuses.filter (fun p => p.2 != .Success)).map (·.1)).isEmpty
  · rw [if_pos hb]
    exact iff_of_true rfl (key.mp hb)
  · rw [if_neg hb]
    exact iff_of_false (by simp) (fun hall => hb (key.mpr hall))

theorem summarize_partial (statuses : List (String × StageStatus))
    (l : List String) (h : summarize statuses = .PARTIAL_FAILURE l) :
    (∀ n, n ∈ l ↔ ∃ st, (n, st) ∈ statuses ∧ st ≠ .Success) ∧ l ≠ [] := by
  simp only [summarize] at h
  by_cases hb : ((statuses.filter (fun p => p.2 != .Success)).map (·.1)).isEmpty
  · rw [if_pos hb] at h
    cases h
  · rw [if_neg hb] at h
    injection h with hl
    subst hl
    constructor
    · intro n
      constructor
      · intro hn
        rcases List.mem_map.mp hn with ⟨p, hp, hpn⟩
        rcases List.mem_filter.mp hp with ⟨hpmem, hpred⟩
        refine ⟨p.2, ?_, by simpa using hpred⟩
        have : (n, p.2) = p := by
          rw [← hpn]
        rw [this]
        exact hpmem
      · intro ⟨st, hmem, hne⟩
        refine List.mem_map.mpr ⟨(n, st), List.mem_filter.mpr ⟨hmem, ?_⟩, rfl⟩
        simpa using hne
    · intro hnil
      rw [List.isEmpty_iff] at hb
      exact hb hnil

/-- C7: a run is reported `SUCCESS` exactly when every stage reports success;
otherwise it is `PARTIAL_FAILURE` carrying precisely the failed/skipped stage
names; and the entry point exits with status `0` exactly on full success
(non-zero on a cycle error or on any stage failure). -/
theorem run_summary_and_exit_status (g : Graph) (store0 : Store) :
    (∀ statuses, (runPipeline g store0).result = .ok statuses →
      ((summarize statuses = .SUCCESS ↔ ∀ p ∈ statuses, p.2 = .Success) ∧
       (∀ l, summarize statuses = .PARTIAL_FAILURE l →
          (∀ n, n ∈ l ↔ ∃ st, (n, st) ∈ statuses ∧ st ≠ .Success) ∧
          l ≠ []) ∧
       (exitCode g store0 = 0 ↔ ∀ p ∈ statuses, p.2 = .Success))) ∧
    ((runPipeline g store0).result = Except.error .GraphCycleError →
      exitCode g store0 = 1) := by
  constructor
  · intro statuses hres
    refine ⟨summarize_success_iff statuses,
      fun l hl => summarize_partial statuses l hl, ?_⟩
    simp only [exitCode, hres]
    rw [← summarize_success_iff statuses]
    cases hs : summarize statuses with
    | SUCCESS => simp
    | PARTIAL_FAILURE l => simp
  · intro hres
    simp only [exitCode, hres]

/-- Witness for C7: the three-stage graph runs to full success with exit
status 0; the graph with a failing stage A yields `PARTIAL_FAILURE` listing A
and the skipped B, with exit status 1. -/
theorem run_summary_and_exit_status_witness :
    (runPipeline wGraph []).result =
      .ok [("raw", .Success), ("prepared", .Success),
        ("transformed", .Success)] ∧
    exitCode wGraph [] = 0 ∧
    (runPipeline wFailGraph []).result =
      .ok [("A", .Failed), ("B", .UpstreamFailed)] ∧
    summarize [("A", StageStatus.Failed), ("B", StageStatus.UpstreamFailed)]
      = .PARTIAL_FAILURE ["A", "B"] ∧
    exitCode wFailGraph [] = 1 := by
  have h1 : (runPipeline wGraph []).result =
      .ok [("raw", .Success), ("prepared", .Success),
        ("transformed", .Success)] := rfl
  have hmain := (run_summary_and_exit_status wGraph []).1 _ h1
  have h2 : exitCode wGraph [] = 0 := by
    apply hmain.2.2.mpr
    intro p hp
    fin_cases hp <;> rfl
  exact ⟨h1, h2, rfl, rfl, rfl⟩

end Orchestration

namespace FeatureStore

open Orchestration

/-- Modelled from the spec: a feature definition (registry entry): feature
name, human description, owning/source stage, version, physical location of
the backing artifact, and data type. -/
structure FeatureDef where
  name : String
  description : String
  source_stage : String
  version : Nat
  location : String
  dtype : String
deriving DecidableEq

/-- Modelled from the spec: the registry is a durable mapping of feature
definitions (append/update-only). -/
abbrev Registry := List FeatureDef

/-- Modelled from the spec: the registry-integrity error. -/
inductive RegistryError where
  | DuplicateFeatureVersionError
deriving DecidableEq

/-- Modelled from the spec: retrieval-time errors of `get_feature_view`. -/
inductive RetrievalError where
  | UnknownFeatureError
  | ArtifactMissingError
deriving DecidableEq

/-- Modelled from the spec: `register_feature` inserts or updates a feature
definition; it fails with `DuplicateFeatureVersionError` when a definition
with the same name+version already exists with different metadata. -/
def register_feature (reg : Registry) (d : FeatureDef) :
    Except RegistryError Registry :=
  match reg.find? (fun e => e.name == d.name && e.version == d.version) with
  | some e => if e = d then .ok reg else .error .DuplicateFeatureVersionError
  | none => .ok (reg ++ [d])

/-- Latest-version resolution of a feature name over the registry. -/
def latestFeature (reg : Registry) (n : String) : Option FeatureDef :=
  (reg.filter (fun e => e.name == n)).foldl
    (fun acc e =>
      match acc with
      | none => some e
      | some b => if b.version ≤ e.version then some e else some b)
    none

/-- Modelled from the spec: resolve a feature name against the registry,
optionally pinned to a version (`as_of_version`). -/
def lookupFeature (reg : Registry) (n : String) (asOf : Option Nat) :
    Option FeatureDef :=
  match asOf with
  | some v => reg.find? (fun e => e.name == n && e.version == v)
  | none => latestFeature reg n

/-- A column of the transformed artifact. -/
abbrev Column := List Int

/-- A columnar table: column name ↦ values. -/
abbrev Table := List (String × Column)

/-- The physical artifact data: location ↦ table. -/
abbrev ArtifactData := List (String × Table)

/-- Phase 1 of retrieval: resolve every requested name to its registry entry;
any unregistered name fails the call with `UnknownFeatureError`. -/
def resolveAll (reg : Registry) (asOf : Option Nat) :
    List String → Except RetrievalError (List FeatureDef)
  | [] => .ok []
  | n :: rest =>
    match lookupFeature reg n asOf with
    | none => .error .UnknownFeatureError
    | some e =>
      match resolveAll reg asOf rest with
      | .error err => .error err
      | .ok es => .ok (e :: es)

/-- Phase 2 of retrieval: load each entry's backing artifact and project the
feature's column; an unreadable location or a missing column fails the call
with `ArtifactMissingError`. -/
def loadColumns (store : ArtifactData) :
    List FeatureDef → Except RetrievalError Table
  | [] => .ok []
  | e :: es =>
    match lookupA store e.location with
    | none => .error .ArtifactMissingError
    | some table =>
      match lookupA table e.name with
      | none => .error .ArtifactMissingError
      | some col =>
        match loadColumns store es with
        | .error err => .error err
        | .ok cols => .ok ((e.name, col) :: cols)

/-- Modelled from the spec: the materialized Feature View (columns = named
features). -/
structure FeatureView where
  columns : Table
deriving DecidableEq

/-- Modelled from the spec: `get_feature_view(selected_features, as_of_version)`
resolves each requested name to its registry entry, loads the referenced
artifact and projects the requested columns. The pair's second component is
the registry state after the call (retrieval never modifies it). -/
def get_feature_view (reg : Registry) (store : ArtifactData)
    (selected : List String) (asOf : Option Nat) :
    (Except RetrievalError FeatureView) × Registry :=
  match resolveAll reg asOf selected with
  | .error err => (.error err, reg)
  | .ok es =>
    match loadColumns store es with
    | .error err => (.error err, reg)
    | .ok cols => (.ok ⟨cols⟩, reg)

/-- Is a requested name fully resolvable: registered (for the pinned version)
and backed by a readable artifact holding the feature's column? -/
def resolvable (reg : Registry) (store : ArtifactData) (asOf : Option Nat)
    (n : String) : Bool :=
  match lookupFeature reg n asOf with
  | none => false
  | some e =>
    match lookupA store e.location with
    | none => false
    | some table => (lookupA table e.name).isSome

theorem latestFeature_aux_name (n : String) :
    ∀ (l : List FeatureDef) (acc : Option FeatureDef),
      (∀ b, acc = some b → b.name = n) →
      (∀ e ∈ l, e.name = n) →
      ∀ r, l.foldl
        (fun acc e =>
          match acc with
          | none => some e
          | some b => if b.version ≤ e.version then some e else some b)
        acc = some r →
      r.name = n := by
  intro l
  induction l with
  | nil => intro acc hacc _ r h; exact hacc r h
  | cons e es ih =>
    intro acc hacc hl r h
    refine ih _ ?_ (fun x hx => hl x (List.mem_cons_of_mem _ hx)) r h
    intro b hb
    cases acc with
    | none =>
      have : e = b := by
        injection hb
      rw [← this]
      exact hl e (List.mem_cons_self _ _)
    | some a =>
      by_cases hv : a.version ≤ e.version
      · simp only [hv, if_pos] at hb
        have : e = b := by injection hb
        rw [← this]
        exact hl e (List.mem_cons_self _ _)
      · simp only [hv, if_neg] at hb
        have : a = b := by injection hb
        rw [← this]
        exact hacc a rfl

theorem lookupFeature_name {reg : Registry} {n : String} {asOf : Option Nat}
    {e : FeatureDef} (h : lookupFeature reg n asOf = some e) : e.name = n := by
  cases asOf with
  | some v =>
    have h' : reg.find? (fun e => e.name == n && e.version == v) = some e := h
    have hp := List.find?_some h'
    simp only [Bool.and_eq_true, beq_iff_eq] at hp
    exact hp.1
  | none =>
    have h' : latestFeature reg n = some e := h
    unfold latestFeature at h'
    refine latestFeature_aux_name n _ none (fun b hb => by cases hb) ?_ e h'
    intro x hx
    exact eq_of_beq (List.mem_filter.mp hx).2

theorem resolveAll_ok {reg : Registry} {asOf : Option Nat} :
    ∀ {selected : List String},
      (∀ n ∈ selected, (lookupFeature reg n asOf).isSome) →
      ∃ es, resolveAll reg asOf selected = .ok es ∧
        es.map (·.name) = selected ∧
        ∀ e ∈ es, ∃ n ∈ selected, lookupFeature reg n asOf = some e := by
  intro selected
  induction selected with
  | nil => intro _; exact ⟨[], rfl, rfl, fun e he => absurd he (by simp)⟩
  | cons n rest ih =>
    intro h
    have hn := h n (List.mem_cons_self _ _)
    cases he : lookupFeature reg n asOf with
    | none => rw [he] at hn; cases hn
    | some e =>
      rcases ih (fun m hm => h m (List.mem_cons_of_mem _ hm)) with
        ⟨es, hes, hmap, hfrom⟩
      refine ⟨e :: es, ?_, ?_, ?_⟩
      · simp only [resolveAll, he, hes]
      · simp only [List.map_cons, hmap, lookupFeature_name he]
      · intro x hx
        rcases List.mem_cons.mp hx with rfl | hx'
        · exact ⟨n, List.mem_cons_self _ _, he⟩
        · rcases hfrom x hx' with ⟨m, hm, hxm⟩
          exact ⟨m, List.mem_cons_of_mem _ hm, hxm⟩

theorem resolveAll_unknown {reg : Registry} {asOf : Option Nat} :
    ∀ {selected : List String},
      (∃ n ∈ selected, lookupFeature reg n asOf = none) →
      resolveAll reg asOf selected = .error .UnknownFeatureError := by
  intro selected
  induction selected with
  | nil => intro ⟨n, hn, _⟩; cases hn
  | cons m rest ih =>
    intro ⟨n, hn, hnone⟩
    cases he : lookupFeature reg m asOf with
    | none => simp only [resolveAll, he]
    | some e =>
      have hn' : n ∈ rest := by
        rcases List.mem_cons.mp hn with rfl | h
        · rw [he] at hnone; cases hnone
        · exact h
      have := ih ⟨n, hn', hnone⟩
      simp only [resolveAll, he, this]

theorem loadColumns_ok {store : ArtifactData} :
    ∀ {es : List FeatureDef},
      (∀ e ∈ es, ∃ t, lookupA store e.location = some t ∧
        (lookupA t e.name).isSome) →
      ∃ cols, loadColumns store es = .ok cols ∧
        cols.map (·.1) = es.map (·.name) := by
  intro es
  induction es with
  | nil => intro _; exact ⟨[], rfl, rfl⟩
  | cons e es' ih =>
    intro h
    rcases h e (List.mem_cons_self _ _) with ⟨t, ht, hcol⟩
    cases hc : lookupA t e.name with
    | none => rw [hc] at hcol; cases hcol
    | some col =>
      rcases ih (fun x hx => h x (List.mem_cons_of_mem _ hx)) with
        ⟨cols, hcols, hmap⟩
      refine ⟨(e.name, col) :: cols, ?_, ?_⟩
      · simp only [loadColumns, ht, hc, hcols]
      · simp only [List.map_cons, hmap]

/-- C5: `get_feature_view` returns a view whose columns are exactly the
requested names whenever every requested name is registered and its artifact
(and column) is readable; it fails with `UnknownFeatureError` when any
requested name is not registered; and in every case the registry state after
the call is unmodified. -/
theorem get_feature_view_contract (reg : Registry) (store : ArtifactData)
    (selected : List String) (asOf : Option Nat) :
    ((∀ n ∈ selected, resolvable reg store asOf n = true) →
      ∃ view, (get_feature_view reg store selected asOf).1 = .ok view ∧
        view.columns.map (·.1) = selected) ∧
    ((∃ n ∈ selected, lookupFeature reg n asOf = none) →
      (get_feature_view reg store selected asOf).1
        = .error .UnknownFeatureError) ∧
    (get_feature_view reg store selected asOf).2 = reg := by
  refine ⟨?_, ?_, ?_⟩
  · intro h
    have hres : ∀ n ∈ selected, (lookupFeature reg n asOf).isSome := by
      intro n hn
      have := h n hn
      unfold resolvable at this
      cases he : lookupFeature reg n asOf with
      | none => rw [he] at this; cases this
      | some e => rfl
    rcases resolveAll_ok hres with ⟨es, hes, hmap, hfrom⟩
    have hload : ∀ e ∈ es, ∃ t, lookupA store e.location = some t ∧
        (lookupA t e.name).isSome := by
      intro e hemem
      rcases hfrom e hemem with ⟨n, hn, hne⟩
      have hr := h n hn
      unfold resolvable at hr
      rw [hne] at hr
      have hr2 : (match lookupA store e.location with
          | none => false
          | some table => (lookupA table e.name).isSome) = true := hr
      cases ht : lookupA store e.location with
      | none => rw [ht] at hr2; cases hr2
      | some t =>
        rw [ht] at hr2
        exact ⟨t, rfl, hr2⟩
    rcases loadColumns_ok hload with ⟨cols, hcols, hcmap⟩
    refine ⟨⟨cols⟩, ?_, ?_⟩
    · simp only [get_feature_view, hes, hcols]
    · rw [hcmap, hmap]
  · intro h
    have := resolveAll_unknown h
    simp only [get_feature_view, this]
  · unfold get_feature_view
    cases resolveAll reg asOf selected with
    | error err => rfl
    | ok es =>
      show (match loadColumns store es with
        | Except.error err =>
            ((Except.error err : Except RetrievalError FeatureView), reg)
        | Except.ok cols => (Except.ok ⟨cols⟩, reg)).2 = reg
      cases loadColumns store es with
      | error err => rfl
      | ok cols => rfl

/-- The spec's example registry and transformed artifact. -/
def wFeatMonthly : FeatureDef :=
  ⟨"monthly_charges", "monthly charges of the customer", "transform", 1,
    "transformed_features", "float"⟩

def wFeatTenure : FeatureDef :=
  ⟨"tenure", "tenure in months", "transform", 1, "transformed_features",
    "int"⟩

def wRegistry : Registry := [wFeatMonthly, wFeatTenure]

def wArtifacts : ArtifactData :=
  [("transformed_features",
    [("monthly_charges", [10, 20]), ("tenure", [1, 2])])]

/-- Witness for C5: requesting `{monthly_charges, tenure}` yields a view with
exactly those columns; requesting `nonexistent_feature` raises
`UnknownFeatureError`; the registry is unmodified in both cases. -/
theorem get_feature_view_contract_witness :
    (∀ n ∈ ["monthly_charges", "tenure"],
      resolvable wRegistry wArtifacts none n = true) ∧
    (∃ view,
      (get_feature_view wRegistry wArtifacts ["monthly_charges", "tenure"]
        none).1 = .ok view ∧
      view.columns.map (·.1) = ["monthly_charges", "tenure"]) ∧
    ("nonexistent_feature" ∈ ["nonexistent_feature"] ∧
      lookupFeature wRegistry "nonexistent_feature" none = none) ∧
    (get_feature_view wRegistry wArtifacts ["nonexistent_feature"] none).1
      = .error .UnknownFeatureError ∧
    (get_feature_view wRegistry wArtifacts ["monthly_charges", "tenure"]
      none).2 = wRegistry ∧
    (get_feature_view wRegistry wArtifacts ["nonexistent_feature"] none).2
      = wRegistry := by
  have h1 : ∀ n ∈ ["monthly_charges", "tenure"],
      resolvable wRegistry wArtifacts none n = true := by decide
  have h2 :=
    (get_feature_view_contract wRegistry wArtifacts
      ["monthly_charges", "tenure"] none).1 h1
  have h3 : "nonexistent_feature" ∈ ["nonexistent_feature"] ∧
      lookupFeature wRegistry "nonexistent_feature" none = none :=
    ⟨List.mem_cons_self _ _, rfl⟩
  have h4 :=
    (get_feature_view_contract wRegistry wArtifacts
      ["nonexistent_feature"] none).2.1 ⟨"nonexistent_feature", h3.1, h3.2⟩
  exact ⟨h1, h2, h3, h4,
    (get_feature_view_contract wRegistry wArtifacts
      ["monthly_charges", "tenure"] none).2.2,
    (get_feature_view_contract wRegistry wArtifacts
      ["nonexistent_feature"] none).2.2⟩

end FeatureStore

namespace FeatureStore

theorem find?_append_left {α : Type} {p : α → Bool} {l1 : List α} {a : α}
    (h : l1.find? p = some a) (l2 : List α) :
    (l1 ++ l2).find? p = some a := by
  induction l1 with
  | nil => cases h
  | cons x xs ih =>
    show (x :: (xs ++ l2)).find? p = some a
    rw [List.find?_cons]
    rw [List.find?_cons] at h
    cases hp : p x with
    | true =>
      rw [hp] at h
      exact h
    | false =>
      rw [hp] at h
      exact ih h

theorem featureKey_inj {reg : Registry}
    (hk : (reg.map (fun e => (e.name, e.version))).Nodup) :
    ∀ {e1 e2 : FeatureDef}, e1 ∈ reg → e2 ∈ reg →
      e1.name = e2.name → e1.version = e2.version → e1 = e2 := by
  intro e1 e2 h1 h2 hn hv
  exact List.inj_on_of_nodup_map hk h1 h2 (by rw [hn, hv])

/-- C6: on a registry whose (name, version) keys are distinct (the invariant
`register_feature` maintains), registration fails with
`DuplicateFeatureVersionError` exactly when an entry with the same name and
version but different metadata already exists; registering a fresh
name+version (in particular, the same name under a new version) appends the
definition, and every retrieval pinned to an old version still returns the
original metadata. -/
theorem register_feature_contract (reg : Registry) (d d2 : FeatureDef)
    (hk : (reg.map (fun e => (e.name, e.version))).Nodup) :
    (register_feature reg d = .error .DuplicateFeatureVersionError ↔
      ∃ e ∈ reg, e.name = d.name ∧ e.version = d.version ∧ e ≠ d) ∧
    ((∀ e ∈ reg, ¬(e.name = d2.name ∧ e.version = d2.version)) →
      register_feature reg d2 = .ok (reg ++ [d2]) ∧
      ∀ n v e, lookupFeature reg n (some v) = some e →
        lookupFeature (reg ++ [d2]) n (some v) = some e) := by
  constructor
  · constructor
    · intro h
      unfold register_feature at h
      cases hf : reg.find?
          (fun e => e.name == d.name && e.version == d.version) with
      | none => rw [hf] at h; cases h
      | some e =>
        rw [hf] at h
        have h2 : (if e = d then (Except.ok reg : Except RegistryError Registry)
            else .error .DuplicateFeatureVersionError)
            = .error .DuplicateFeatureVersionError := h
        by_cases he : e = d
        · rw [if_pos he] at h2
          cases h2
        · have hp := List.find?_some hf
          simp only [Bool.and_eq_true, beq_iff_eq] at hp
          exact ⟨e, List.mem_of_find?_eq_some hf, hp.1, hp.2, he⟩
    · intro ⟨e, he, hn, hv, hne⟩
      unfold register_feature
      cases hf : reg.find?
          (fun x => x.name == d.name && x.version == d.version) with
      | none =>
        exfalso
        have hnp := List.find?_eq_none.mp hf e he
        simp only [Bool.and_eq_true, beq_iff_eq] at hnp
        exact hnp ⟨hn, hv⟩
      | some e' =>
        have hp := List.find?_some hf
        simp only [Bool.and_eq_true, beq_iff_eq] at hp
        have he'mem := List.mem_of_find?_eq_some hf
        have hee : e' = e :=
          featureKey_inj hk he'mem he (hp.1.trans hn.symm)
            (hp.2.trans hv.symm)
        have hne' : e' ≠ d := fun hq => hne (hee.symm.trans hq)
        show (if e' = d then (Except.ok reg : Except RegistryError Registry)
            else .error .DuplicateFeatureVersionError)
          = .error .DuplicateFeatureVersionError
        rw [if_neg hne']
  · intro hno
    have hf : reg.find?
        (fun x => x.name == d2.name && x.version == d2.version) = none := by
      apply List.find?_eq_none.mpr
      intro x hx hpx
      simp only [Bool.and_eq_true, beq_iff_eq] at hpx
      exact hno x hx hpx
    constructor
    · unfold register_feature
      rw [hf]
    · intro n v e he
      have h' : reg.find? (fun x => x.name == n && x.version == v)
          = some e := he
      exact find?_append_left h' [d2]

/-- The spec's example: "tenure" version 1, a conflicting re-registration of
version 1 with a different description, and a new version 2. -/
def wTenV1 : FeatureDef :=
  ⟨"tenure", "tenure in months", "transform", 1, "loc1", "int"⟩

def wTenV1x : FeatureDef :=
  ⟨"tenure", "a different description", "transform", 1, "loc1", "int"⟩

def wTenV2 : FeatureDef :=
  ⟨"tenure", "new description", "transform", 2, "loc2", "int"⟩

/-- Witness for C6: re-registering ("tenure", 1) with a different description
fails with `DuplicateFeatureVersionError`; registering ("tenure", 2) succeeds;
a retrieval pinned `as_of_version = 1` still returns the original metadata. -/
theorem register_feature_contract_witness :
    ([wTenV1].map (fun e => (e.name, e.version))).Nodup ∧
    register_feature [wTenV1] wTenV1x
      = .error .DuplicateFeatureVersionError ∧
    register_feature [wTenV1] wTenV2 = .ok [wTenV1, wTenV2] ∧
    lookupFeature [wTenV1, wTenV2] "tenure" (some 1) = some wTenV1 := by
  have hk : ([wTenV1].map (fun e => (e.name, e.version))).Nodup := by decide
  have hdup := (register_feature_contract [wTenV1] wTenV1x wTenV2 hk).1.mpr
    ⟨wTenV1, List.mem_cons_self _ _, rfl, rfl, by decide⟩
  have hok := (register_feature_contract [wTenV1] wTenV1x wTenV2 hk).2
    (by decide)
  refine ⟨hk, hdup, hok.1, ?_⟩
  exact hok.2 "tenure" 1 wTenV1 rfl

end FeatureStore
